import Mathlib

/-!
# Taipei traffic routing backend — verification of the specification

Shallow embedding of the routing/query engine of the Taipei traffic
repository (frontend `TrafficView.tsx` / `MapView.tsx` plus the backend
described in `data/README.md`, `data/MODEL_INFO.md`, `data/DATA_INFO.md`
and `TRAFFIC_VIEW_FEATURE.md`).  Congestion values, weights and costs are
rationals; clock times are `(hour, minute)` pairs of naturals.
-/

namespace Taipeh

/-! ## Traffic categories

The four-level congestion classification shared by the snapshot
aggregator, the cost model and the frontend legend. -/

/-- The four traffic categories of the legend in `TrafficView.tsx` and of
the backend classifier. -/
inductive TrafficCategory where
  | low
  | moderate
  | high
  | severe
deriving DecidableEq, Repr

/-- Modelled from the spec: the backend classifier
(`detector_service.py`, not in the repository snapshot) assigns a category
to a congestion value with boundaries `<25`, `[25,50)`, `[50,100)`, `≥100`
(spec §3 TrafficCategory; same table in `TRAFFIC_VIEW_FEATURE.md` and the
`TrafficView.tsx` legend). -/
def category (v : ℚ) : TrafficCategory :=
  if v < 25 then .low
  else if v < 50 then .moderate
  else if v < 100 then .high
  else .severe

/-! ## Cost model -/

/-- Modelled from the spec: the congestion penalty multiplier of the cost
model (backend, not in the repository snapshot).  Each piece is the linear
map onto the multiplier range documented in spec §4.3 and
`data/MODEL_INFO.md` (low `1.0x–1.25x`, moderate `1.0x–3.5x`, high
`100x–500x`, severe `500x–5000x`, capped at the `5000` ceiling).  The
documents do not fix the severe piece's slope; we take the linear map that
reaches the ceiling at congestion `200`. -/
def penalty (v : ℚ) : ℚ :=
  if v < 25 then 1 + v / 100
  else if v < 50 then 1 + (v - 25) / 10
  else if v < 100 then 100 + 8 * (v - 50)
  else min (500 + 45 * (v - 100)) 5000

/-- Modelled from the spec: `TrafficCost(edge, congestionValue) =
edge.normalizedDistanceWeight × penalty(congestionValue)` (spec §4.3). -/
def trafficCost (w v : ℚ) : ℚ := w * penalty v

/-- Modelled from the spec: `DistanceCost(edge) =
edge.normalizedDistanceWeight` (spec §4.3). -/
def distanceCost (w : ℚ) : ℚ := w

/-! ## Theorems: C1 -/

/-- **C1.** The traffic category assignment is a total function into
{low, moderate, high, severe} with `low ↔ v < 25`,
`moderate ↔ 25 ≤ v < 50`, `high ↔ 50 ≤ v < 100`, `severe ↔ v ≥ 100`;
the boundary values 25, 50, 100 classify as moderate, high, severe and
24.999, 49.999, 99.999 classify as low, moderate, high. -/
theorem category_boundaries :
    (∀ v : ℚ,
      (category v = .low ↔ v < 25) ∧
      (category v = .moderate ↔ 25 ≤ v ∧ v < 50) ∧
      (category v = .high ↔ 50 ≤ v ∧ v < 100) ∧
      (category v = .severe ↔ 100 ≤ v)) ∧
    category 25 = .moderate ∧ category 50 = .high ∧ category 100 = .severe ∧
    category (24999/1000) = .low ∧ category (49999/1000) = .moderate ∧
    category (99999/1000) = .high := by
  refine ⟨fun v => ?_, by norm_num [category], by norm_num [category],
    by norm_num [category], by norm_num [category], by norm_num [category],
    by norm_num [category]⟩
  unfold category
  split_ifs with h1 h2 h3 <;>
      refine ⟨?_, ?_, ?_, ?_⟩ <;> simp_all <;>
    first
      | linarith
      | (intro h; linarith)

/-! ## Theorems: C2 -/

/-- **C2, counterexample.** The penalty function is not monotonic over its
whole domain: at the low→moderate boundary the multiplier drops from
`1.24` (at congestion 24) back to `1.0` (at congestion 25), because the
documented moderate range restarts at `1.0x` while the low range ends at
`1.25x`. -/
theorem penalty_not_monotone :
    0 ≤ (24 : ℚ) ∧ (24 : ℚ) ≤ 25 ∧ penalty 25 < penalty 24 := by
  norm_num [penalty]

/-- **C2, amended.** The penalty is non-decreasing on each side of the
low→moderate boundary (in particular across the 50 and 100 boundaries and
under the 5000 cap), each piece stays inside its documented multiplier
range — `[1, 1.25]` below 25, `[1, 3.5]` on `[25,50)`, `[100, 500]` on
`[50,100)`, `[500, 5000]` at and above 100 — and
`TrafficCost(edge, v) = edge.normalizedDistanceWeight × penalty(v)`;
but it is not globally monotonic (see `penalty_not_monotone`). -/
theorem penalty_piecewise :
    (∀ v₁ v₂ : ℚ, 0 ≤ v₁ → v₁ ≤ v₂ → v₂ < 25 → penalty v₁ ≤ penalty v₂) ∧
    (∀ v₁ v₂ : ℚ, 25 ≤ v₁ → v₁ ≤ v₂ → penalty v₁ ≤ penalty v₂) ∧
    (∀ v : ℚ, 0 ≤ v → v < 25 → 1 ≤ penalty v ∧ penalty v ≤ 5/4) ∧
    (∀ v : ℚ, 25 ≤ v → v < 50 → 1 ≤ penalty v ∧ penalty v ≤ 7/2) ∧
    (∀ v : ℚ, 50 ≤ v → v < 100 → 100 ≤ penalty v ∧ penalty v ≤ 500) ∧
    (∀ v : ℚ, 100 ≤ v → 500 ≤ penalty v ∧ penalty v ≤ 5000) ∧
    (∀ w v : ℚ, trafficCost w v = w * penalty v) := by
  refine ⟨?_, ?_, ?_, ?_, ?_, ?_, fun w v => rfl⟩ <;> intros
  all_goals unfold penalty
  all_goals split_ifs
  all_goals
    first
      | linarith
      | (constructor <;> linarith)
      | (refine le_min ?_ ?_ <;>
          first
            | linarith
            | (apply min_le_of_left_le; linarith)
            | (apply min_le_of_right_le; linarith))
      | (constructor <;>
          first
            | (refine le_min ?_ ?_ <;> linarith)
            | (apply min_le_of_right_le; linarith))

/-- Witness for `penalty_piecewise` at congestion values 30 and 60. -/
theorem penalty_piecewise_witness :
    (25 : ℚ) ≤ 30 ∧ (30 : ℚ) ≤ 60 ∧ penalty 30 ≤ penalty 60 :=
  ⟨by norm_num, by norm_num, penalty_piecewise.2.1 30 60 (by norm_num) (by norm_num)⟩

/-! ## Time grid

`intervalToTime` from `TrafficView.tsx` (interval 0–47 → clock time; the
component renders the pair zero-padded as `"HH:MM:00"`), and the inverse
bucket formula `⌊(hour·60+minute)/30⌋` documented in
`TRAFFIC_VIEW_FEATURE.md`. -/

/-- `intervalToTime` of `TrafficView.tsx`: 30-minute interval index to
`(hours, minutes)`, via `totalMinutes = interval * 30`,
`hours = ⌊totalMinutes / 60⌋`, `minutes = totalMinutes % 60`. -/
def intervalToTime (interval : ℕ) : ℕ × ℕ :=
  (interval * 30 / 60, interval * 30 % 60)

/-- The 30-minute bucket index of a clock time:
`interval = ⌊(hour * 60 + minute) / 30⌋` (`TRAFFIC_VIEW_FEATURE.md`). -/
def timeToInterval (hour minute : ℕ) : ℕ :=
  (hour * 60 + minute) / 30

/-! ## Theorems: C3 -/

/-- **C3.** Bucket index → clock time (`intervalToTime`) and clock time →
bucket index (`⌊(h·60+m)/30⌋`) are mutually inverse over the 48-bucket
domain, with 0↔00:00, 18↔09:00, 24↔12:00, 36↔18:00, 47↔23:30. -/
theorem interval_time_roundtrip :
    (∀ i : ℕ, i < 48 →
      timeToInterval (intervalToTime i).1 (intervalToTime i).2 = i) ∧
    (∀ h m : ℕ, h < 24 → m < 60 → m % 30 = 0 →
      intervalToTime (timeToInterval h m) = (h, m)) ∧
    intervalToTime 0 = (0, 0) ∧ intervalToTime 18 = (9, 0) ∧
    intervalToTime 24 = (12, 0) ∧ intervalToTime 36 = (18, 0) ∧
    intervalToTime 47 = (23, 30) ∧
    timeToInterval 0 0 = 0 ∧ timeToInterval 9 0 = 18 ∧
    timeToInterval 12 0 = 24 ∧ timeToInterval 18 0 = 36 ∧
    timeToInterval 23 30 = 47 := by
  refine ⟨fun i hi => ?_, fun h m hh hm h30 => ?_, rfl, rfl, rfl, rfl, rfl,
    rfl, rfl, rfl, rfl, rfl⟩
  · simp only [intervalToTime, timeToInterval]
    omega
  · simp only [intervalToTime, timeToInterval, Prod.mk.injEq]
    omega

/-- Witness for `interval_time_roundtrip` at bucket 18 / clock time
09:00. -/
theorem interval_time_roundtrip_witness :
    timeToInterval (intervalToTime 18).1 (intervalToTime 18).2 = 18 ∧
    intervalToTime (timeToInterval 9 0) = (9, 0) :=
  ⟨interval_time_roundtrip.1 18 (by norm_num),
   interval_time_roundtrip.2.1 9 0 (by norm_num) (by norm_num) (by norm_num)⟩

/-! ## 30-minute aggregation and snapshots -/

/-- Clock time `(hours, minutes)` of the 3-minute prediction record with
interval index `i` (0–479, covering 00:00:00–23:57:00 per
`data/README.md`): record `i` sits at minute `3·i` of the day. -/
def recordTime (i : ℕ) : ℕ × ℕ :=
  (i * 3 / 60, i * 3 % 60)

/-- Modelled from the spec: `Aggregate30Min(model, date, time)` of the
PredictionStore (backend, not in the repository snapshot) averages the
3-minute records whose clock time falls in the 30-minute bucket
containing the query time, bucket index `⌊(hour·60+minute)/30⌋`
(spec §4.2; `TRAFFIC_VIEW_FEATURE.md` Time Intervals).  `series` is the
sensor's full-day 480-slot record series. -/
def aggregate30Min (series : ℕ → ℚ) (hour minute : ℕ) : ℚ :=
  let b := timeToInterval hour minute
  let idxs := (List.range 480).filter
    (fun i => timeToInterval (recordTime i).1 (recordTime i).2 = b)
  (idxs.map series).sum / idxs.length

/-- A detector entry of the traffic-snapshot response
(`TrafficView.tsx` interface `TrafficDetector`). -/
structure TrafficDetector where
  detid : ℕ
  lat : ℚ
  lon : ℚ
  traffic : ℚ
  cat : TrafficCategory
  road : String

/-- The statistics block of the traffic-snapshot response
(`TrafficView.tsx` interface `TrafficStatistics`). -/
structure TrafficStatistics where
  total_detectors : ℕ
  avg_traffic : ℚ
  min_traffic : ℚ
  max_traffic : ℚ
  low_count : ℕ
  moderate_count : ℕ
  high_count : ℕ
  severe_count : ℕ

/-- Modelled from the spec: `SnapshotAt` of the TrafficSnapshotAggregator
(backend, not in the repository snapshot): for every sensor fetch the
`Aggregate30Min` value, classify it with the shared `category` function
and emit `{id, lat, lon, value, category, road}` (spec §4.5).  A sensor is
`(id, lat, lon, road)`; `data` maps a sensor id to its day series. -/
def snapshotAt (sensors : List (ℕ × ℚ × ℚ × String)) (data : ℕ → ℕ → ℚ)
    (hour minute : ℕ) : List TrafficDetector :=
  sensors.map (fun s =>
    let v := aggregate30Min (data s.1) hour minute
    ⟨s.1, s.2.1, s.2.2.1, v, category v, s.2.2.2⟩)

/-- Number of snapshot detectors classified with category `c`. -/
def countCategory (ds : List TrafficDetector) (c : TrafficCategory) : ℕ :=
  (ds.filter (fun d => d.cat = c)).length

/-- Modelled from the spec: the snapshot statistics — total count,
average, min, max and per-category counts (spec §4.5). -/
def snapshotStatistics (ds : List TrafficDetector) : TrafficStatistics where
  total_detectors := ds.length
  avg_traffic := (ds.map (·.traffic)).sum / ds.length
  min_traffic := ((ds.map (·.traffic)).min?).getD 0
  max_traffic := ((ds.map (·.traffic)).max?).getD 0
  low_count := countCategory ds .low
  moderate_count := countCategory ds .moderate
  high_count := countCategory ds .high
  severe_count := countCategory ds .severe

/-- Each detector falls in exactly one category, so the four counts
partition any detector list. -/
lemma countCategory_partition (ds : List TrafficDetector) :
    countCategory ds .low + countCategory ds .moderate +
      countCategory ds .high + countCategory ds .severe = ds.length := by
  induction ds with
  | nil => rfl
  | cons d rest ih =>
    cases hc : d.cat <;>
      simp only [countCategory, List.filter_cons, hc, List.length_cons] at * <;>
      simp_all <;> omega

/-! ## Theorems: C4 -/

/-- **C4.** For every snapshot produced by the aggregator — any sensor
set, prediction data and time — the four per-category counts sum to the
total detector count. -/
theorem snapshot_counts_partition
    (sensors : List (ℕ × ℚ × ℚ × String)) (data : ℕ → ℕ → ℚ)
    (hour minute : ℕ) :
    (snapshotStatistics (snapshotAt sensors data hour minute)).low_count +
      (snapshotStatistics (snapshotAt sensors data hour minute)).moderate_count +
      (snapshotStatistics (snapshotAt sensors data hour minute)).high_count +
      (snapshotStatistics (snapshotAt sensors data hour minute)).severe_count =
      (snapshotStatistics (snapshotAt sensors data hour minute)).total_detectors :=
  countCategory_partition _

/-! ## Theorems: C7 -/

/-- The bucket of a 3-minute record is its index divided by 10. -/
lemma recordTime_bucket (i : ℕ) :
    timeToInterval (recordTime i).1 (recordTime i).2 = i / 10 := by
  simp only [recordTime, timeToInterval]
  omega

/-- The 3-minute records lying in 30-minute bucket `b < 48` are exactly
records `10·b, …, 10·b+9`. -/
lemma filter_bucket (b : ℕ) (hb : b < 48) :
    (List.range 480).filter
        (fun i => timeToInterval (recordTime i).1 (recordTime i).2 = b) =
      (List.range 10).map (fun j => 10 * b + j) := by
  have hpred : ∀ i ∈ List.range 480,
      (decide (timeToInterval (recordTime i).1 (recordTime i).2 = b)) =
        decide (i / 10 = b) := by
    intro i _
    rw [recordTime_bucket]
  rw [List.filter_congr hpred]
  apply List.eq_of_perm_of_sorted
    (r := (· ≤ · : ℕ → ℕ → Prop))
  · rw [List.perm_ext_iff_of_nodup
      (List.Nodup.filter _ (List.nodup_range 480))
      ((List.nodup_range 10).map (fun a b hab => by omega))]
    intro x
    simp only [List.mem_filter, List.mem_range, decide_eq_true_eq,
      List.mem_map]
    constructor
    · rintro ⟨hx, hdiv⟩
      exact ⟨x - 10 * b, by omega, by omega⟩
    · rintro ⟨j, hj, rfl⟩
      omega
  · exact ((List.pairwise_lt_range 480).sublist
      (List.filter_sublist _)).imp le_of_lt
  · refine List.Pairwise.map _ (fun a b hab => ?_) (List.pairwise_lt_range 10)
    omega

/-- **C7.** `Aggregate30Min` averages exactly the ten 3-minute records of
the 30-minute bucket `⌊(hour·60+minute)/30⌋` containing the query time:
the records in the bucket are exactly the ten with indices
`10·b …10·b+9`, and the result is their sum divided by 10. -/
theorem aggregate30Min_avg (series : ℕ → ℚ) (hour minute : ℕ)
    (hh : hour < 24) (hm : minute < 60) :
    ((List.range 480).filter
        (fun i => timeToInterval (recordTime i).1 (recordTime i).2 =
          timeToInterval hour minute) =
      (List.range 10).map (fun j => 10 * timeToInterval hour minute + j)) ∧
    ((List.range 480).filter
        (fun i => timeToInterval (recordTime i).1 (recordTime i).2 =
          timeToInterval hour minute)).length = 10 ∧
    aggregate30Min series hour minute =
      ((List.range 10).map
        (fun j => series (10 * timeToInterval hour minute + j))).sum / 10 := by
  have hb : timeToInterval hour minute < 48 := by
    simp only [timeToInterval]
    omega
  have hfil := filter_bucket (timeToInterval hour minute) hb
  refine ⟨hfil, ?_, ?_⟩
  · rw [hfil]
    simp
  · simp only [aggregate30Min]
    rw [hfil]
    simp [List.map_map, Function.comp_def]

/-- Witness for `aggregate30Min_avg` at 09:10 (bucket 18). -/
theorem aggregate30Min_avg_witness :
    aggregate30Min (fun i => (i : ℚ)) 9 10 =
      ((List.range 10).map
        (fun j => ((10 * timeToInterval 9 10 + j : ℕ) : ℚ))).sum / 10 :=
  (aggregate30Min_avg (fun i => (i : ℚ)) 9 10 (by norm_num) (by norm_num)).2.2

/-! ## PredictionStore point queries -/

/-- A prediction record of the per-model/per-date CSV files
(`data/README.md`): detector id, interval index, clock time
`(h, m, s)` and predicted traffic value. -/
structure PredRecord where
  detid : ℕ
  interval : ℕ
  time : ℕ × ℕ × ℕ
  traffic_predict : ℚ

/-- The typed not-found failure of the prediction API
(`data/README.md` Error Handling, 404). -/
inductive NotFoundError where
  | notFound
deriving DecidableEq, Repr

/-- Whether a stored record answers the query for `sensorId` at `time`. -/
def matchesQuery (sensorId : ℕ) (time : ℕ × ℕ × ℕ) (r : PredRecord) : Bool :=
  decide (r.detid = sensorId ∧ r.time = time)

/-- Modelled from the spec: `PredictionStore.Get(sensorId, model, date,
time)` (backend, not in the repository snapshot): look up the model/date
file (absent → `NotFoundError`), then the record matching the sensor id
and time (no match → `NotFoundError`), and return its stored congestion
value unchanged (spec §4.2; `data/README.md` Error Handling).  `files`
maps `(model, date)` to the parsed record list when the file exists. -/
def psGet (files : String → String → Option (List PredRecord))
    (sensorId : ℕ) (model date : String) (time : ℕ × ℕ × ℕ) :
    Except NotFoundError ℚ :=
  match files model date with
  | none => .error .notFound
  | some recs =>
    match recs.find? (matchesQuery sensorId time) with
    | none => .error .notFound
    | some r => .ok r.traffic_predict

/-! ## Theorems: C8 -/

/-- **C8.** `Get` fails with `NotFoundError` iff the model/date file is
absent or no stored record matches the sensor id and time; on success the
result is the congestion value of a stored matching record — a missing
value is never replaced by a default of zero. -/
theorem psGet_spec (files : String → String → Option (List PredRecord))
    (sensorId : ℕ) (model date : String) (time : ℕ × ℕ × ℕ) :
    (psGet files sensorId model date time = .error .notFound ↔
      files model date = none ∨
      ∃ recs, files model date = some recs ∧
        ∀ r ∈ recs, ¬(r.detid = sensorId ∧ r.time = time)) ∧
    (∀ v, psGet files sensorId model date time = .ok v →
      ∃ recs r, files model date = some recs ∧ r ∈ recs ∧
        r.detid = sensorId ∧ r.time = time ∧ r.traffic_predict = v) := by
  cases hfile : files model date with
  | none =>
    simp [psGet, hfile]
  | some recs =>
    cases hfind : recs.find? (matchesQuery sensorId time) with
    | none =>
      have hall : ∀ r ∈ recs, ¬(r.detid = sensorId ∧ r.time = time) := by
        intro r hr
        have := List.find?_eq_none.mp hfind r hr
        simpa [matchesQuery] using this
      constructor
      · simp only [psGet, hfile, hfind, true_iff]
        exact Or.inr ⟨recs, rfl, hall⟩
      · intro v hv
        simp [psGet, hfile, hfind] at hv
    | some r =>
      have hmem := List.mem_of_find?_eq_some hfind
      have hp : r.detid = sensorId ∧ r.time = time := by
        have := List.find?_some hfind
        simpa [matchesQuery] using this
      constructor
      · constructor
        · intro h
          simp [psGet, hfile, hfind] at h
        · rintro (h | ⟨recs', hr', hall⟩)
          · cases h
          · cases hr'
            exact absurd hp (hall r hmem)
      · intro v hv
        simp only [psGet, hfile, hfind, Except.ok.injEq] at hv
        exact ⟨recs, r, rfl, hmem, hp.1, hp.2, hv⟩

/-- A one-file prediction store holding the fixture record of spec §8:
sensor 61, model `xgboost`, 09:00:00 → congestion 53.5. -/
def fixtureFiles : String → String → Option (List PredRecord) :=
  fun model date =>
    if model = "xgboost" ∧ date = "oct1_2017" then
      some [⟨61, 180, (9, 0, 0), 107/2⟩]
    else none

/-- Witness for `psGet_spec`: the fixture lookup succeeds and returns the
stored record's value. -/
theorem psGet_spec_witness :
    ∃ recs r, fixtureFiles "xgboost" "oct1_2017" = some recs ∧ r ∈ recs ∧
      r.detid = 61 ∧ r.time = (9, 0, 0) ∧ r.traffic_predict = 107/2 :=
  (psGet_spec fixtureFiles 61 "xgboost" "oct1_2017" (9, 0, 0)).2 (107/2)
    (by rfl)

/-! ## TrafficView refresh -/

/-- The component state of `TrafficView.tsx` touched by
`loadTrafficData`: the displayed detectors, the statistics panel, the
loading flag and the error banner. -/
structure TrafficViewState where
  detectors : List TrafficDetector
  statistics : Option TrafficStatistics
  isLoading : Bool
  error : Option String

/-- Outcome of the `fetch` inside `loadTrafficData`: a thrown
network/parse error, a non-ok HTTP response (turned into the thrown
`'Failed to load traffic data'`), or a parsed payload. -/
inductive FetchOutcome where
  | thrown (msg : String)
  | notOk
  | payload (detectors : List TrafficDetector) (statistics : TrafficStatistics)

/-- `loadTrafficData` of `TrafficView.tsx` as a state transformer: set
`isLoading`, clear `error`, then either install the fetched detectors and
statistics (success) or record the error message (failure), and finally
clear `isLoading`. -/
def loadTrafficData (s : TrafficViewState) (o : FetchOutcome) :
    TrafficViewState :=
  let s₁ : TrafficViewState := { s with isLoading := true, error := none }
  match o with
  | .thrown msg => { s₁ with error := some msg, isLoading := false }
  | .notOk =>
    { s₁ with error := some "Failed to load traffic data", isLoading := false }
  | .payload ds st =>
    { s₁ with detectors := ds, statistics := some st, isLoading := false }

/-! ## Theorems: C9 -/

/-- **C9.** When the traffic-data request fails — thrown error or non-ok
response — `loadTrafficData` leaves the displayed detectors and
statistics unchanged and only updates the error message and the loading
flag. -/
theorem loadTrafficData_failure_preserves (s : TrafficViewState) :
    (∀ msg, (loadTrafficData s (.thrown msg)).detectors = s.detectors ∧
      (loadTrafficData s (.thrown msg)).statistics = s.statistics ∧
      (loadTrafficData s (.thrown msg)).isLoading = false ∧
      (loadTrafficData s (.thrown msg)).error = some msg) ∧
    ((loadTrafficData s .notOk).detectors = s.detectors ∧
      (loadTrafficData s .notOk).statistics = s.statistics ∧
      (loadTrafficData s .notOk).isLoading = false ∧
      (loadTrafficData s .notOk).error = some "Failed to load traffic data") :=
  ⟨fun _ => ⟨rfl, rfl, rfl, rfl⟩, rfl, rfl, rfl, rfl⟩

/-! ## MapView route rendering -/

/-- `PathInfo` of `frontend/src/types.ts`, restricted to the fields
`MapView.tsx` reads when building a rendered route.  Coordinates are
`(lon, lat)` pairs as sent by the backend. -/
structure PathInfo where
  path : List ℕ
  polyline : Option (List (ℚ × ℚ))
  geometry : Option (List (ℚ × ℚ))
  distance_meters : ℚ

/-- The route-coordinate extraction of `MapView.tsx`
(`shortestRoute`/`fastestRoute`): prefer `polyline`, fall back to
`geometry`, else the empty list; every `[lon, lat]` pair is swapped to
`[lat, lon]` for Leaflet.  (An empty `polyline` array is truthy in
JavaScript, so a present-but-empty `polyline` also takes the first
branch.)  An absent path slot gives the empty list. -/
def routeCoords (p : Option PathInfo) : List (ℚ × ℚ) :=
  match p with
  | none => []
  | some pi =>
    match pi.polyline with
    | some pl => pl.map (fun c => (c.2, c.1))
    | none =>
      match pi.geometry with
      | some gl => gl.map (fun c => (c.2, c.1))
      | none => []

/-! ## Theorems: C10 -/

/-- **C10.** The rendered route swaps every `[lon, lat]` pair to
`[lat, lon]`; when both `polyline` and `geometry` are present, `polyline`
wins and `geometry` is ignored; when both are absent (or the path slot is
missing) the rendered route is empty. -/
theorem routeCoords_spec :
    (∀ (path : List ℕ) (pl : List (ℚ × ℚ))
        (geo : Option (List (ℚ × ℚ))) (d : ℚ),
      routeCoords (some ⟨path, some pl, geo, d⟩) =
        pl.map (fun c => (c.2, c.1))) ∧
    (∀ (path : List ℕ) (gl : List (ℚ × ℚ)) (d : ℚ),
      routeCoords (some ⟨path, none, some gl, d⟩) =
        gl.map (fun c => (c.2, c.1))) ∧
    (∀ (path : List ℕ) (d : ℚ),
      routeCoords (some ⟨path, none, none, d⟩) = []) ∧
    routeCoords none = [] :=
  ⟨fun _ _ _ _ => rfl, fun _ _ _ => rfl, fun _ _ => rfl, rfl⟩

/-! ## Sensor graph and paths

Modelled from the spec: the SensorGraph (backend, not in the repository
snapshot) is built from the detector list and the pairwise normalized
distance-weight table `taipeh_adjacency_matrix…csv` (`data/DATA_INFO.md`);
`weight u v` is the normalized weight of the directed edge `u → v`, `none`
where the matrix has no connection. -/
structure SensorGraph where
  nodes : List ℕ
  weight : ℕ → ℕ → Option ℚ

/-- Successors of `u`: the nodes reached by an edge from `u`. -/
def SensorGraph.succs (g : SensorGraph) (u : ℕ) : List ℕ :=
  g.nodes.filter (fun v => (g.weight u v).isSome)

/-- Every consecutive pair of the vertex sequence is an edge of `g`. -/
def SensorGraph.isChain (g : SensorGraph) : List ℕ → Bool
  | u :: v :: rest => (g.weight u v).isSome && g.isChain (v :: rest)
  | _ => true

/-- `p` is a path from `s` to `d` in `g` (vertex sequence; `s = d` is the
one-vertex path). -/
def IsPath (g : SensorGraph) (s d : ℕ) (p : List ℕ) : Prop :=
  p.head? = some s ∧ p.getLast? = some d ∧ g.isChain p = true

/-- Total cost of a vertex sequence under the per-edge cost `c`. -/
def costOf (c : ℕ → ℕ → ℚ) : List ℕ → ℚ
  | u :: v :: rest => c u v + costOf c (v :: rest)
  | _ => 0

/-- Modelled from the spec: the per-edge cost used by ShortestPath —
`DistanceCost(edge) = edge.normalizedDistanceWeight` (spec §4.3). -/
def distCostFn (g : SensorGraph) : ℕ → ℕ → ℚ :=
  fun u v => (g.weight u v).getD 0

/-- Modelled from the spec: the per-edge cost used by FastestPath —
`TrafficCost` with the congestion of the edge's *destination* sensor
(spec §4.3/§4.4), `cong` being the static congestion snapshot at the
query time. -/
def trafficCostFn (g : SensorGraph) (cong : ℕ → ℚ) : ℕ → ℕ → ℚ :=
  fun u v => (g.weight u v).getD 0 * penalty (cong v)

/-! ## Best-first search (priority-queue Dijkstra / A*)

Modelled from the spec: the PathSolver (backend, not in the repository
snapshot) — priority-queue best-first search with lazy deletion; with
zero heuristic it is spec §4.4's Dijkstra, with the scaled great-circle
heuristic it is §4.4's A*. -/

/-- A priority-queue entry: priority `gcost + h vertex`, attained cost
`gcost`, and the path so far in reverse (head = `vertex`). -/
structure Entry where
  prio : ℚ
  gcost : ℚ
  vertex : ℕ
  revPath : List ℕ

/-- Extract an entry of minimal priority. -/
def popMin : List Entry → Option (Entry × List Entry)
  | [] => none
  | e :: rest =>
    match popMin rest with
    | none => some (e, [])
    | some (m, rest') =>
      if e.prio ≤ m.prio then some (e, rest) else some (m, e :: rest')

lemma popMin_eq_none_iff (q : List Entry) : popMin q = none ↔ q = [] := by
  cases q with
  | nil => simp [popMin]
  | cons e rest =>
    simp only [popMin]
    cases popMin rest with
    | none => simp
    | some p =>
      cases p with
      | mk m rest' => by_cases hle : e.prio ≤ m.prio <;> simp [hle]

lemma popMin_perm (q : List Entry) (e : Entry) (rest : List Entry)
    (hq : popMin q = some (e, rest)) : q.Perm (e :: rest) := by
  induction q generalizing e rest with
  | nil => simp [popMin] at hq
  | cons x xs ih =>
    simp only [popMin] at hq
    cases hpm : popMin xs with
    | none =>
      rw [hpm] at hq
      have hxs : xs = [] := (popMin_eq_none_iff xs).mp hpm
      subst hxs
      cases hq
      exact List.Perm.refl _
    | some p =>
      obtain ⟨m, rest'⟩ := p
      rw [hpm] at hq
      by_cases hle : x.prio ≤ m.prio
      · simp only [hle, if_true] at hq
        cases hq
        exact List.Perm.refl _
      · simp only [hle, if_false] at hq
        cases hq
        exact ((ih e rest' hpm).cons x).trans (List.Perm.swap e x rest')

lemma popMin_le (q : List Entry) (e : Entry) (rest : List Entry)
    (hq : popMin q = some (e, rest)) : ∀ x ∈ q, e.prio ≤ x.prio := by
  induction q generalizing e rest with
  | nil => simp [popMin] at hq
  | cons x xs ih =>
    simp only [popMin] at hq
    cases hpm : popMin xs with
    | none =>
      rw [hpm] at hq
      have hxs : xs = [] := (popMin_eq_none_iff xs).mp hpm
      subst hxs
      cases hq
      intro y hy
      simp only [List.mem_singleton] at hy
      exact hy ▸ le_refl _
    | some p =>
      obtain ⟨m, rest'⟩ := p
      rw [hpm] at hq
      by_cases hle : x.prio ≤ m.prio
      · simp only [hle, if_true] at hq
        cases hq
        intro y hy
        rcases List.mem_cons.mp hy with rfl | hy
        · exact le_refl _
        · exact le_trans hle (ih m rest' hpm y hy)
      · simp only [hle, if_false] at hq
        cases hq
        intro y hy
        rcases List.mem_cons.mp hy with rfl | hy
        · exact le_of_lt (lt_of_not_le hle)
        · exact ih e rest' hpm y hy

lemma popMin_length (q : List Entry) (e : Entry) (rest : List Entry)
    (hq : popMin q = some (e, rest)) : rest.length + 1 = q.length := by
  have := (popMin_perm q e rest hq).length_eq
  simpa using this.symm

/-- Nodes of the graph not yet settled. -/
def unsettledCount (g : SensorGraph) (settled : List (ℕ × ℚ)) : ℕ :=
  (g.nodes.dedup.filter
    (fun v => decide (v ∉ settled.map Prod.fst))).length

/-- Termination measure of the search loop. -/
def work (g : SensorGraph) (settled : List (ℕ × ℚ))
    (queue : List Entry) : ℕ :=
  unsettledCount g settled * (g.nodes.length + 1) + queue.length

lemma succs_length_le (g : SensorGraph) (u : ℕ) :
    (g.succs u).length ≤ g.nodes.length :=
  List.length_filter_le _ _

/-- Removing one present element from a duplicate-free list shortens it
by exactly one. -/
lemma length_filter_ne_of_nodup {M : List ℕ} (hnd : M.Nodup) {v : ℕ}
    (hv : v ∈ M) :
    (M.filter (fun x => decide (x ≠ v))).length + 1 = M.length := by
  induction M with
  | nil => cases hv
  | cons a M ih =>
    rcases List.mem_cons.mp hv with rfl | hv'
    · have hvnot : v ∉ M := (List.nodup_cons.mp hnd).1
      have hall : M.filter (fun x => decide (x ≠ v)) = M := by
        apply List.filter_eq_self.mpr
        intro x hx
        simp only [decide_eq_true_eq]
        rintro rfl
        exact hvnot hx
      simp only [List.filter_cons]
      rw [show (decide (v ≠ v)) = false from by simp]
      simp only [Bool.false_eq_true, if_false]
      rw [hall]
      simp
    · have hnd' := (List.nodup_cons.mp hnd).2
      have hne : a ≠ v := by
        rintro rfl
        exact (List.nodup_cons.mp hnd).1 hv'
      have hlen := ih hnd' hv'
      simp only [List.filter_cons]
      rw [show (decide (a ≠ v)) = true from by simp [hne]]
      simp only [if_true, List.length_cons]
      omega

lemma unsettledCount_cons (g : SensorGraph) (settled : List (ℕ × ℚ))
    (v : ℕ) (d : ℚ) (hv : v ∈ g.nodes) (hns : v ∉ settled.map Prod.fst) :
    unsettledCount g ((v, d) :: settled) + 1 = unsettledCount g settled := by
  unfold unsettledCount
  have hcongr : ∀ x ∈ g.nodes.dedup,
      (decide (x ∉ ((v, d) :: settled).map Prod.fst)) =
        (decide (x ≠ v) && decide (x ∉ settled.map Prod.fst)) := by
    intro x _
    by_cases hx : x = v <;> by_cases hx' : x ∈ settled.map Prod.fst <;>
      simp [hx, hx']
  rw [List.filter_congr hcongr, ← List.filter_filter]
  have hnd : (g.nodes.dedup.filter
      (fun v => decide (v ∉ settled.map Prod.fst))).Nodup :=
    (g.nodes.nodup_dedup).filter _
  have hvmem : v ∈ g.nodes.dedup.filter
      (fun v => decide (v ∉ settled.map Prod.fst)) := by
    rw [List.mem_filter]
    exact ⟨List.mem_dedup.mpr hv, by simpa using hns⟩
  have := length_filter_ne_of_nodup hnd hvmem
  omega

/-- The search loop: pop a minimal-priority entry; skip it if its vertex
is already settled (lazy deletion); return when the destination is
popped; otherwise settle the vertex and push one candidate per outgoing
edge, with cost `gcost + c u v` and priority `gcost + c u v + h v`.
(Vertices outside the node table are dropped; a well-formed graph never
produces them.) -/
def searchLoop (g : SensorGraph) (c : ℕ → ℕ → ℚ) (h : ℕ → ℚ) (dest : ℕ)
    (settled : List (ℕ × ℚ)) (queue : List Entry) : Option (List ℕ × ℚ) :=
  match hq : popMin queue with
  | none => none
  | some (e, rest) =>
    if e.vertex ∈ settled.map Prod.fst then
      searchLoop g c h dest settled rest
    else if e.vertex = dest then
      some (e.revPath.reverse, e.gcost)
    else if hv : e.vertex ∈ g.nodes then
      searchLoop g c h dest ((e.vertex, e.gcost) :: settled)
        (rest ++ (g.succs e.vertex).map (fun v =>
          ⟨e.gcost + c e.vertex v + h v, e.gcost + c e.vertex v, v,
            v :: e.revPath⟩))
    else
      searchLoop g c h dest settled rest
termination_by work g settled queue
decreasing_by
  · have := popMin_length queue e rest hq
    unfold work
    omega
  · have hql := popMin_length queue e rest hq
    have hsl := succs_length_le g e.vertex
    have hcnt := unsettledCount_cons g settled e.vertex e.gcost hv (by
      assumption)
    unfold work
    simp only [List.length_append, List.length_map]
    have hn : unsettledCount g settled =
        unsettledCount g ((e.vertex, e.gcost) :: settled) + 1 := hcnt.symm
    rw [hn]
    have : 0 ≤ unsettledCount g ((e.vertex, e.gcost) :: settled) *
        (g.nodes.length + 1) := Nat.zero_le _
    nlinarith [hql, hsl]
  · have := popMin_length queue e rest hq
    unfold work
    omega

/-! ### Path algebra -/

@[simp] lemma isChain_nil (g : SensorGraph) : g.isChain [] = true := rfl

@[simp] lemma isChain_single (g : SensorGraph) (u : ℕ) :
    g.isChain [u] = true := rfl

@[simp] lemma isChain_cons_cons (g : SensorGraph) (u v : ℕ) (rest : List ℕ) :
    g.isChain (u :: v :: rest) =
      ((g.weight u v).isSome && g.isChain (v :: rest)) := rfl

@[simp] lemma costOf_nil (c : ℕ → ℕ → ℚ) : costOf c [] = 0 := rfl

@[simp] lemma costOf_single (c : ℕ → ℕ → ℚ) (u : ℕ) : costOf c [u] = 0 := rfl

@[simp] lemma costOf_cons_cons (c : ℕ → ℕ → ℚ) (u v : ℕ) (rest : List ℕ) :
    costOf c (u :: v :: rest) = c u v + costOf c (v :: rest) := rfl

lemma IsPath_singleton (g : SensorGraph) (v : ℕ) : IsPath g v v [v] :=
  ⟨rfl, rfl, rfl⟩

lemma isChain_append_one (g : SensorGraph) :
    ∀ (p : List ℕ) (v w : ℕ), g.isChain p = true → p.getLast? = some v →
      (g.weight v w).isSome = true → g.isChain (p ++ [w]) = true := by
  intro p
  induction p with
  | nil =>
    intro v w _ hlast _
    simp at hlast
  | cons x rest ih =>
    intro v w hch hlast hw
    cases rest with
    | nil =>
      simp only [List.getLast?_singleton, Option.some.injEq] at hlast
      subst hlast
      simp [hw]
    | cons y r =>
      simp only [isChain_cons_cons, Bool.and_eq_true] at hch
      have hlast' : (y :: r).getLast? = some v := by
        simpa using hlast
      have := ih v w hch.2 hlast' hw
      simp only [List.cons_append, isChain_cons_cons, Bool.and_eq_true]
      exact ⟨hch.1, this⟩

lemma costOf_append_one (c : ℕ → ℕ → ℚ) :
    ∀ (p : List ℕ) (v w : ℕ), p.getLast? = some v →
      costOf c (p ++ [w]) = costOf c p + c v w := by
  intro p
  induction p with
  | nil =>
    intro v w hlast
    simp at hlast
  | cons x rest ih =>
    intro v w hlast
    cases rest with
    | nil =>
      simp only [List.getLast?_singleton, Option.some.injEq] at hlast
      subst hlast
      simp
    | cons y r =>
      have hlast' : (y :: r).getLast? = some v := by
        simpa using hlast
      have := ih v w hlast'
      simp only [List.cons_append, costOf_cons_cons] at this ⊢
      rw [this]
      ring

lemma IsPath_extend {g : SensorGraph} {s v w : ℕ} {p : List ℕ}
    (hp : IsPath g s v p) (hw : (g.weight v w).isSome = true) :
    IsPath g s w (p ++ [w]) := by
  obtain ⟨h1, h2, h3⟩ := hp
  cases p with
  | nil => simp at h1
  | cons x t =>
    simp only [List.head?_cons, Option.some.injEq] at h1
    subst h1
    exact ⟨by simp, List.getLast?_concat _, isChain_append_one g _ v w h3 h2 hw⟩

/-- Consistency along a path: if the heuristic is consistent on every
edge, it never exceeds the cost of any path plus the heuristic at the
path's end. -/
lemma heuristic_le_costOf {g : SensorGraph} {c : ℕ → ℕ → ℚ} {h : ℕ → ℚ}
    (hcons : ∀ u v, (g.weight u v).isSome = true → h u ≤ c u v + h v) :
    ∀ (p : List ℕ) (v t : ℕ), IsPath g v t p →
      h v ≤ costOf c p + h t := by
  intro p
  induction p with
  | nil =>
    intro v t hp
    exact absurd hp.1 (by simp)
  | cons x rest ih =>
    intro v t hp
    obtain ⟨h1, h2, h3⟩ := hp
    simp only [List.head?_cons, Option.some.injEq] at h1
    subst h1
    cases rest with
    | nil =>
      simp only [List.getLast?_singleton, Option.some.injEq] at h2
      subst h2
      simp
    | cons y r =>
      simp only [isChain_cons_cons, Bool.and_eq_true] at h3
      have h2' : (y :: r).getLast? = some t := by simpa using h2
      have hy := ih y t ⟨rfl, h2', h3.2⟩
      have hvy := hcons x y h3.1
      simp only [costOf_cons_cons]
      linarith

/-- Non-negative edge costs make every path cost non-negative. -/
lemma costOf_nonneg {c : ℕ → ℕ → ℚ} (hc : ∀ u v, 0 ≤ c u v) :
    ∀ p : List ℕ, 0 ≤ costOf c p := by
  intro p
  induction p with
  | nil => simp
  | cons x rest ih =>
    cases rest with
    | nil => simp
    | cons y r =>
      simp only [costOf_cons_cons]
      have := hc x y
      linarith [ih]

lemma mem_succs {g : SensorGraph} {u w : ℕ} :
    w ∈ g.succs u ↔ w ∈ g.nodes ∧ (g.weight u w).isSome = true := by
  simp [SensorGraph.succs, List.mem_filter]

/-- Loop invariant of the best-first search: settled vertices carry
optimal distances witnessed by real paths; every queue entry is backed by
a real path with matching cost and priority; the source is settled or
queued at cost ≤ 0; and every edge leaving the settled region into
unsettled territory is covered by a queue entry. -/
structure SearchInv (g : SensorGraph) (c : ℕ → ℕ → ℚ) (h : ℕ → ℚ)
    (source dest : ℕ) (settled : List (ℕ × ℚ)) (queue : List Entry) :
    Prop where
  settled_node : ∀ vd ∈ settled, vd.1 ∈ g.nodes ∧ vd.1 ≠ dest
  settled_opt : ∀ vd ∈ settled,
    (∃ p, IsPath g source vd.1 p ∧ costOf c p = vd.2) ∧
    ∀ p, IsPath g source vd.1 p → vd.2 ≤ costOf c p
  queue_path : ∀ e ∈ queue, IsPath g source e.vertex e.revPath.reverse ∧
    costOf c e.revPath.reverse = e.gcost ∧ e.prio = e.gcost + h e.vertex
  start : (∃ d, (source, d) ∈ settled) ∨
    ∃ e ∈ queue, e.vertex = source ∧ e.gcost ≤ 0
  frontier : ∀ vd ∈ settled, ∀ w ∈ g.succs vd.1,
    w ∉ settled.map Prod.fst →
    ∃ e ∈ queue, e.vertex = w ∧ e.gcost ≤ vd.2 + c vd.1 w

/-- A path from a settled vertex to an unsettled target forces a queue
entry whose priority is below the settled distance plus the path cost
plus the target heuristic. -/
lemma frontier_path {g : SensorGraph} {c : ℕ → ℕ → ℚ} {h : ℕ → ℚ}
    {source dest : ℕ} {settled : List (ℕ × ℚ)} {queue : List Entry}
    (inv : SearchInv g c h source dest settled queue)
    (hclosed : ∀ u v, (g.weight u v).isSome = true → v ∈ g.nodes)
    (hcons : ∀ u v, (g.weight u v).isSome = true → h u ≤ c u v + h v) :
    ∀ (tail : List ℕ) (v : ℕ) (d : ℚ) (t : ℕ),
      (v, d) ∈ settled → IsPath g v t (v :: tail) →
      t ∉ settled.map Prod.fst →
      ∃ e ∈ queue, e.prio ≤ d + costOf c (v :: tail) + h t := by
  intro tail
  induction tail with
  | nil =>
    intro v d t hmem hp ht
    have hvt : v = t := by
      have := hp.2.1
      simpa using this
    subst hvt
    exact absurd (List.mem_map.mpr ⟨(v, d), hmem, rfl⟩) ht
  | cons w r ih =>
    intro v d t hmem hp ht
    obtain ⟨h1, h2, h3⟩ := hp
    simp only [isChain_cons_cons, Bool.and_eq_true] at h3
    have hvw : (g.weight v w).isSome = true := h3.1
    have h2' : (w :: r).getLast? = some t := by simpa using h2
    have hpw : IsPath g w t (w :: r) := ⟨rfl, h2', h3.2⟩
    by_cases hw : w ∈ settled.map Prod.fst
    · obtain ⟨x, hx, hx1⟩ := List.mem_map.mp hw
      have hxmem : (w, x.2) ∈ settled := by
        rw [← hx1]
        simpa using hx
      obtain ⟨⟨pv, hpv, hpvc⟩, _⟩ := inv.settled_opt (v, d) hmem
      have hextend : IsPath g source w (pv ++ [w]) := IsPath_extend hpv hvw
      have hcostext : costOf c (pv ++ [w]) = d + c v w := by
        rw [costOf_append_one c pv v w hpv.2.1, hpvc]
      have hle : x.2 ≤ d + c v w := by
        have := (inv.settled_opt (w, x.2) hxmem).2 (pv ++ [w]) hextend
        rw [hcostext] at this
        simpa using this
      obtain ⟨e, he, hprio⟩ := ih w x.2 t hxmem hpw ht
      refine ⟨e, he, ?_⟩
      simp only [costOf_cons_cons]
      linarith
    · obtain ⟨e, he, hev, heg⟩ := inv.frontier (v, d) hmem w
        (mem_succs.mpr ⟨hclosed v w hvw, hvw⟩) hw
      have hq := inv.queue_path e he
      have hle : h w ≤ costOf c (w :: r) + h t :=
        heuristic_le_costOf hcons (w :: r) w t hpw
      refine ⟨e, he, ?_⟩
      rw [hq.2.2, hev]
      simp only [costOf_cons_cons]
      linarith

/-- Any path from the source to an unsettled target forces a queue entry
whose priority is below the path cost plus the target heuristic. -/
lemma cover {g : SensorGraph} {c : ℕ → ℕ → ℚ} {h : ℕ → ℚ}
    {source dest : ℕ} {settled : List (ℕ × ℚ)} {queue : List Entry}
    (inv : SearchInv g c h source dest settled queue)
    (hclosed : ∀ u v, (g.weight u v).isSome = true → v ∈ g.nodes)
    (hcons : ∀ u v, (g.weight u v).isSome = true → h u ≤ c u v + h v) :
    ∀ (p : List ℕ) (t : ℕ), IsPath g source t p →
      t ∉ settled.map Prod.fst →
      ∃ e ∈ queue, e.prio ≤ costOf c p + h t := by
  intro p t hp ht
  obtain ⟨tail, rfl⟩ : ∃ tail, p = source :: tail := by
    cases p with
    | nil => exact absurd hp.1 (by simp)
    | cons x tl =>
      have : x = source := by
        have := hp.1
        simpa using this
      exact ⟨tl, by rw [this]⟩
  rcases inv.start with ⟨d₀, hd₀⟩ | ⟨e₀, he₀, hv₀, hg₀⟩
  · have hopt := (inv.settled_opt (source, d₀) hd₀).2 [source]
      (IsPath_singleton g source)
    simp only [costOf_single] at hopt
    obtain ⟨e, he, hprio⟩ :=
      frontier_path inv hclosed hcons tail source d₀ t hd₀ hp ht
    exact ⟨e, he, by linarith⟩
  · have hq := inv.queue_path e₀ he₀
    have hle : h source ≤ costOf c (source :: tail) + h t :=
      heuristic_le_costOf hcons _ source t hp
    refine ⟨e₀, he₀, ?_⟩
    rw [hq.2.2, hv₀]
    linarith

/-- Correctness of the best-first search: with a well-formed graph,
non-negative edge costs and an edge-consistent heuristic, whenever some
path from `source` to `dest` exists the loop returns a valid path of
minimal cost. -/
theorem searchLoop_correct (g : SensorGraph) (c : ℕ → ℕ → ℚ) (h : ℕ → ℚ)
    (source dest : ℕ)
    (hclosed : ∀ u v, (g.weight u v).isSome = true → v ∈ g.nodes)
    (hsrc : source ∈ g.nodes)
    (hcons : ∀ u v, (g.weight u v).isSome = true → h u ≤ c u v + h v) :
    ∀ settled queue, SearchInv g c h source dest settled queue →
      (∃ p, IsPath g source dest p) →
      ∃ q k, searchLoop g c h dest settled queue = some (q, k) ∧
        IsPath g source dest q ∧ costOf c q = k ∧
        ∀ p, IsPath g source dest p → k ≤ costOf c p := by
  intro settled queue
  induction settled, queue using searchLoop.induct g c h dest with
  | case1 settled queue hq =>
    intro hinv hex
    exfalso
    have hqnil : queue = [] := (popMin_eq_none_iff queue).mp hq
    obtain ⟨p, hp⟩ := hex
    have hdns : dest ∉ settled.map Prod.fst := by
      intro hd
      obtain ⟨vd, hvd, hvd1⟩ := List.mem_map.mp hd
      exact (hinv.settled_node vd hvd).2 hvd1
    obtain ⟨e, he, _⟩ := cover hinv hclosed hcons p dest hp hdns
    rw [hqnil] at he
    simp at he
  | case2 settled queue e rest hq hmem ih =>
    intro hinv hex
    have hperm := popMin_perm queue e rest hq
    have hinv' : SearchInv g c h source dest settled rest := by
      constructor
      · exact hinv.settled_node
      · exact hinv.settled_opt
      · intro e' he'
        exact hinv.queue_path e'
          (hperm.mem_iff.mpr (List.mem_cons_of_mem _ he'))
      · rcases hinv.start with hs | ⟨e₀, he₀, hv₀, hg₀⟩
        · exact Or.inl hs
        · rcases List.mem_cons.mp (hperm.mem_iff.mp he₀) with rfl | h'
          · left
            obtain ⟨x, hx, hx1⟩ := List.mem_map.mp hmem
            refine ⟨x.2, ?_⟩
            rw [← hv₀, ← hx1]
            simpa using hx
          · exact Or.inr ⟨e₀, h', hv₀, hg₀⟩
      · intro vd hvd w hw hnw
        obtain ⟨e', he', hev, heg⟩ := hinv.frontier vd hvd w hw hnw
        have hne : e' ≠ e := by
          intro heq
          rw [heq] at hev
          rw [hev] at hmem
          exact hnw hmem
        have hr : e' ∈ rest := by
          rcases List.mem_cons.mp (hperm.mem_iff.mp he') with h' | h'
          · exact absurd h' hne
          · exact h'
        exact ⟨e', hr, hev, heg⟩
    have hstep : searchLoop g c h dest settled queue =
        searchLoop g c h dest settled rest := by
      rw [searchLoop.eq_def, hq]
      simp [hmem]
    rw [hstep]
    exact ih hinv' hex
  | case3 settled queue e rest hq hnmem hde =>
    intro hinv hex
    have hperm := popMin_perm queue e rest hq
    have hmemq : e ∈ queue := hperm.mem_iff.mpr (List.mem_cons_self _ _)
    have hqp := hinv.queue_path e hmemq
    have hstep : searchLoop g c h dest settled queue =
        some (e.revPath.reverse, e.gcost) := by
      have hnmem' : dest ∉ List.map Prod.fst settled := hde ▸ hnmem
      rw [searchLoop.eq_def, hq]
      simp [hde, hnmem']
    refine ⟨e.revPath.reverse, e.gcost, hstep, ?_, hqp.2.1, ?_⟩
    · rw [← hde]
      exact hqp.1
    · intro p hp
      have hdns : dest ∉ settled.map Prod.fst := by
        rw [← hde]
        exact hnmem
      obtain ⟨e', he', hprio⟩ := cover hinv hclosed hcons p dest hp hdns
      have hmin := popMin_le queue e rest hq e' he'
      rw [hqp.2.2, hde] at hmin
      have := le_trans hmin hprio
      linarith
  | case4 settled queue e rest hq hnmem hndest hnode ih =>
    intro hinv hex
    have hperm := popMin_perm queue e rest hq
    have hmemq : e ∈ queue := hperm.mem_iff.mpr (List.mem_cons_self _ _)
    have hqp := hinv.queue_path e hmemq
    have hopt : ∀ p, IsPath g source e.vertex p → e.gcost ≤ costOf c p := by
      intro p hp
      obtain ⟨e', he', hprio⟩ := cover hinv hclosed hcons p e.vertex hp hnmem
      have hmin := popMin_le queue e rest hq e' he'
      rw [hqp.2.2] at hmin
      have := le_trans hmin hprio
      linarith
    have hinv' : SearchInv g c h source dest ((e.vertex, e.gcost) :: settled)
        (rest ++ (g.succs e.vertex).map (fun v =>
          ⟨e.gcost + c e.vertex v + h v, e.gcost + c e.vertex v, v,
            v :: e.revPath⟩)) := by
      constructor
      · intro vd hvd
        rcases List.mem_cons.mp hvd with rfl | hvd'
        · exact ⟨hnode, hndest⟩
        · exact hinv.settled_node vd hvd'
      · intro vd hvd
        rcases List.mem_cons.mp hvd with rfl | hvd'
        · exact ⟨⟨e.revPath.reverse, hqp.1, hqp.2.1⟩, hopt⟩
        · exact hinv.settled_opt vd hvd'
      · intro e' he'
        rcases List.mem_append.mp he' with h' | h'
        · exact hinv.queue_path e'
            (hperm.mem_iff.mpr (List.mem_cons_of_mem _ h'))
        · obtain ⟨w, hwsucc, rfl⟩ := List.mem_map.mp h'
          have hw := mem_succs.mp hwsucc
          have hrev : (w :: e.revPath).reverse = e.revPath.reverse ++ [w] := by
            simp
          refine ⟨?_, ?_, rfl⟩
          · rw [hrev]
            exact IsPath_extend hqp.1 hw.2
          · rw [hrev, costOf_append_one c _ e.vertex w hqp.1.2.1, hqp.2.1]
      · by_cases hsv : e.vertex = source
        · left
          refine ⟨e.gcost, ?_⟩
          rw [← hsv]
          exact List.mem_cons_self _ _
        · rcases hinv.start with ⟨d₀, hd₀⟩ | ⟨e₀, he₀, hv₀, hg₀⟩
          · exact Or.inl ⟨d₀, List.mem_cons_of_mem _ hd₀⟩
          · right
            have hne : e₀ ≠ e := by
              intro heq
              rw [heq] at hv₀
              exact hsv hv₀
            have hr : e₀ ∈ rest := by
              rcases List.mem_cons.mp (hperm.mem_iff.mp he₀) with h' | h'
              · exact absurd h' hne
              · exact h'
            exact ⟨e₀, List.mem_append_left _ hr, hv₀, hg₀⟩
      · intro vd hvd w hwsucc hnw
        have hnw' : w ∉ settled.map Prod.fst ∧ w ≠ e.vertex := by
          simp only [List.map_cons, List.mem_cons, not_or] at hnw
          exact ⟨hnw.2, hnw.1⟩
        rcases List.mem_cons.mp hvd with rfl | hvd'
        · refine ⟨⟨e.gcost + c e.vertex w + h w, e.gcost + c e.vertex w, w,
            w :: e.revPath⟩, ?_, rfl, le_refl _⟩
          exact List.mem_append_right _ (List.mem_map.mpr ⟨w, hwsucc, rfl⟩)
        · obtain ⟨e', he', hev, heg⟩ := hinv.frontier vd hvd' w hwsucc hnw'.1
          have hne : e' ≠ e := by
            intro heq
            rw [heq] at hev
            exact hnw'.2 hev.symm
          have hr : e' ∈ rest := by
            rcases List.mem_cons.mp (hperm.mem_iff.mp he') with h' | h'
            · exact absurd h' hne
            · exact h'
          exact ⟨e', List.mem_append_left _ hr, hev, heg⟩
    have hstep : searchLoop g c h dest settled queue =
        searchLoop g c h dest ((e.vertex, e.gcost) :: settled)
          (rest ++ (g.succs e.vertex).map (fun v =>
            ⟨e.gcost + c e.vertex v + h v, e.gcost + c e.vertex v, v,
              v :: e.revPath⟩)) := by
      rw [searchLoop.eq_def, hq]
      simp [hnmem, hndest, hnode]
    rw [hstep]
    exact ih hinv' hex
  | case5 settled queue e rest hq hnmem hndest hnnode ih =>
    intro hinv hex
    have hperm := popMin_perm queue e rest hq
    have hinv' : SearchInv g c h source dest settled rest := by
      constructor
      · exact hinv.settled_node
      · exact hinv.settled_opt
      · intro e' he'
        exact hinv.queue_path e'
          (hperm.mem_iff.mpr (List.mem_cons_of_mem _ he'))
      · rcases hinv.start with hs | ⟨e₀, he₀, hv₀, hg₀⟩
        · exact Or.inl hs
        · have hne : e₀ ≠ e := by
            intro heq
            rw [heq] at hv₀
            rw [hv₀] at hnnode
            exact hnnode hsrc
          have hr : e₀ ∈ rest := by
            rcases List.mem_cons.mp (hperm.mem_iff.mp he₀) with h' | h'
            · exact absurd h' hne
            · exact h'
          exact Or.inr ⟨e₀, hr, hv₀, hg₀⟩
      · intro vd hvd w hw hnw
        obtain ⟨e', he', hev, heg⟩ := hinv.frontier vd hvd w hw hnw
        have hne : e' ≠ e := by
          intro heq
          rw [heq] at hev
          rw [hev] at hnnode
          exact hnnode (mem_succs.mp hw).1
        have hr : e' ∈ rest := by
          rcases List.mem_cons.mp (hperm.mem_iff.mp he') with h' | h'
          · exact absurd h' hne
          · exact h'
        exact ⟨e', hr, hev, heg⟩
    have hstep : searchLoop g c h dest settled queue =
        searchLoop g c h dest settled rest := by
      rw [searchLoop.eq_def, hq]
      simp [hnmem, hndest, hnnode]
    rw [hstep]
    exact ih hinv' hex

/-- The invariant holds at the start: nothing settled, one queue entry
for the source at cost 0 and priority `h source`. -/
lemma searchInv_init (g : SensorGraph) (c : ℕ → ℕ → ℚ) (h : ℕ → ℚ)
    (source dest : ℕ) (p₀ : ℚ) (hp : p₀ = h source) :
    SearchInv g c h source dest [] [⟨p₀, 0, source, [source]⟩] := by
  constructor
  · intro vd hvd
    simp at hvd
  · intro vd hvd
    simp at hvd
  · intro e he
    rw [List.mem_singleton] at he
    subst he
    refine ⟨?_, by simp, by simp [hp]⟩
    simpa using IsPath_singleton g source
  · exact Or.inr ⟨⟨p₀, 0, source, [source]⟩, List.mem_singleton_self _,
      rfl, le_refl 0⟩
  · intro vd hvd
    simp at hvd

/-! ## PathSolver entry points -/

/-- Modelled from the spec: `ShortestPath(graph, source, dest)` —
priority-queue Dijkstra (best-first search with zero heuristic) over
`DistanceCost` (spec §4.4).  Returns the ordered sensor path and its
total cost, `none` when `dest` is unreachable (`NoPathError`). -/
def shortestPath (g : SensorGraph) (source dest : ℕ) :
    Option (List ℕ × ℚ) :=
  searchLoop g (distCostFn g) (fun _ => 0) dest [] [⟨0, 0, source, [source]⟩]

/-- Modelled from the spec: `FastestPath(graph, source, dest, model,
date, time)` — A* over `TrafficCost` with heuristic `sdist · dest`, the
great-circle distance scaled into the normalized units of `DistanceCost`
with the minimum multiplier 1.0 (spec §4.4).  Great-circle distance is
transcendental, so the scaled metric enters as the parameter `sdist`;
`cong` is the static congestion snapshot at the query time. -/
def fastestPath (g : SensorGraph) (sdist : ℕ → ℕ → ℚ) (cong : ℕ → ℚ)
    (source dest : ℕ) : Option (List ℕ × ℚ) :=
  searchLoop g (trafficCostFn g cong) (fun v => sdist v dest) dest []
    [⟨sdist source dest, 0, source, [source]⟩]

/-- Modelled from the spec: the RouteService comparison query — run both
solvers independently for the same endpoints; the model and time select
the congestion snapshot used by the fastest path only (spec §4.6, §6).
`data model time sensor` is the predicted congestion of `sensor` under
`model` at `time`. -/
def optimizeRoute (g : SensorGraph) (sdist : ℕ → ℕ → ℚ)
    (data : String → ℕ → ℕ → ℚ) (source dest : ℕ)
    (model : String) (time : ℕ) :
    Option (List ℕ × ℚ) × Option (List ℕ × ℚ) :=
  (shortestPath g source dest,
   fastestPath g sdist (data model time) source dest)

/-! ## Theorems: C5 -/

/-- **C5.** Two-run noninterference: the ShortestPath slot of the route
comparison is identical across any two choices of model and time — it
depends only on the distance weights. -/
theorem shortestPath_noninterference (g : SensorGraph)
    (sdist : ℕ → ℕ → ℚ) (data : String → ℕ → ℕ → ℚ) (source dest : ℕ)
    (model₁ model₂ : String) (t₁ t₂ : ℕ) :
    (optimizeRoute g sdist data source dest model₁ t₁).1 =
      (optimizeRoute g sdist data source dest model₂ t₂).1 := rfl

/-! ## Theorems: C6 -/

/-- The penalty multiplier is at least 1 on the congestion domain. -/
lemma penalty_ge_one (v : ℚ) (hv : 0 ≤ v) : 1 ≤ penalty v := by
  unfold penalty
  split_ifs <;>
    first
      | linarith
      | (refine le_min ?_ ?_ <;> linarith)

/-- **C6.** With a well-formed graph (edges land on known sensors,
non-negative normalized weights), congestion values ≥ 0 and a scaled
great-circle metric `sdist` (triangle inequality, zero on the diagonal,
multiplier 1.0 so that it never exceeds an edge's normalized weight),
the A* heuristic `sdist · dest` never exceeds the TrafficCost of any
path to the destination (admissibility), and whenever any path exists
FastestPath returns a path of minimal total TrafficCost for the given
static congestion snapshot. -/
theorem fastestPath_admissible_optimal (g : SensorGraph)
    (sdist : ℕ → ℕ → ℚ) (cong : ℕ → ℚ) (source dest : ℕ)
    (hclosed : ∀ u v, (g.weight u v).isSome = true → v ∈ g.nodes)
    (hsrc : source ∈ g.nodes)
    (hw0 : ∀ u v w, g.weight u v = some w → 0 ≤ w)
    (hcong : ∀ v, 0 ≤ cong v)
    (hsd : ∀ u v w, g.weight u v = some w → sdist u v ≤ w)
    (htri : ∀ a b d, sdist a d ≤ sdist a b + sdist b d)
    (hsd0 : ∀ a, sdist a a = 0) :
    (∀ n p, IsPath g n dest p →
      sdist n dest ≤ costOf (trafficCostFn g cong) p) ∧
    (∀ p₀, IsPath g source dest p₀ →
      ∃ q k, fastestPath g sdist cong source dest = some (q, k) ∧
        IsPath g source dest q ∧ costOf (trafficCostFn g cong) q = k ∧
        ∀ p, IsPath g source dest p →
          k ≤ costOf (trafficCostFn g cong) p) := by
  have hedge : ∀ u v, (g.weight u v).isSome = true →
      sdist u v ≤ trafficCostFn g cong u v := by
    intro u v hu
    obtain ⟨w, hw⟩ := Option.isSome_iff_exists.mp hu
    have h1 := hsd u v w hw
    have h2 := hw0 u v w hw
    have h3 := penalty_ge_one (cong v) (hcong v)
    unfold trafficCostFn
    rw [hw]
    simp only [Option.getD_some]
    nlinarith
  have hcons : ∀ u v, (g.weight u v).isSome = true →
      sdist u dest ≤ trafficCostFn g cong u v + sdist v dest := by
    intro u v hu
    have := htri u v dest
    have := hedge u v hu
    linarith
  constructor
  · intro n p hp
    have := heuristic_le_costOf (h := fun v => sdist v dest) hcons p n dest hp
    simp only [hsd0] at this
    linarith
  · intro p₀ hp₀
    exact searchLoop_correct g (trafficCostFn g cong)
      (fun v => sdist v dest) source dest hclosed hsrc hcons [] _
      (searchInv_init g _ _ source dest (sdist source dest) rfl) ⟨p₀, hp₀⟩

/-- Two-sensor witness graph: one edge `0 → 1` of normalized weight
`1/2`. -/
def wGraph : SensorGraph :=
  ⟨[0, 1], fun u v => if u = 0 ∧ v = 1 then some (1/2) else none⟩

/-- Line embedding of the witness sensors, inducing its scaled metric. -/
def wEmbed (n : ℕ) : ℚ := if n = 1 then 1/2 else 0

/-- Witness scaled distance: the line metric of `wEmbed`. -/
def wsd (u v : ℕ) : ℚ := |wEmbed v - wEmbed u|

/-- Witness congestion snapshot. -/
def wcong (v : ℕ) : ℚ := if v = 1 then 30 else 0

/-- Witness for `fastestPath_admissible_optimal` on the two-sensor
graph. -/
theorem fastestPath_admissible_optimal_witness :
    ∃ q k, fastestPath wGraph wsd wcong 0 1 = some (q, k) ∧
      IsPath wGraph 0 1 q ∧ costOf (trafficCostFn wGraph wcong) q = k ∧
      ∀ p, IsPath wGraph 0 1 p →
        k ≤ costOf (trafficCostFn wGraph wcong) p :=
  (fastestPath_admissible_optimal wGraph wsd wcong 0 1
    (by
      intro u v h
      simp only [wGraph] at h ⊢
      split_ifs at h with hc
      · simp [hc.2]
      · simp at h)
    (by simp [wGraph])
    (by
      intro u v w h
      simp only [wGraph] at h
      split_ifs at h with hc
      cases h
      norm_num)
    (by
      intro v
      unfold wcong
      split_ifs <;> norm_num)
    (by
      intro u v w h
      simp only [wGraph] at h
      split_ifs at h with hc
      cases h
      rw [hc.1, hc.2]
      norm_num [wsd, wEmbed, abs_of_nonneg])
    (by
      intro a b d
      have habs := abs_sub_le (wEmbed d) (wEmbed b) (wEmbed a)
      unfold wsd
      linarith)
    (by
      intro a
      simp [wsd])).2
    [0, 1] ⟨rfl, rfl, by norm_num [SensorGraph.isChain, wGraph]⟩

end Taipeh
